import Mathlib

/-
Shallow embedding of `src/lib/event-emitter.ts` (class `EventEmitter`).

The source is a synchronous publish/subscribe registry: an insertion-ordered
JavaScript `Map` from event-name strings to arrays of listener functions,
plus a `maxListeners` threshold.  We embed:

* the `Map<string, Function[]>` as an insertion-ordered association list
  (`EventMap`) with the three `Map` operations used by the source
  (`get`, `set`, `delete`); `Map.set` replaces the value of an existing key
  in place and appends a fresh key at the end, which is exactly what
  `mapSet` does;
* listener callables as an inductive `Listener` of identities.  JavaScript
  compares listeners by reference (`l !== listener`); distinct client
  closures are modelled as `.base` values with distinct ids.  The closures
  the *source itself* creates, and client closures that call back into the
  registry (the only behaviours the specification discusses), are modelled
  by the remaining constructors: `.onceWrap names inner` is the
  `onceListener` closure built by `once` (it closes over the `eventNames`
  string and the wrapped listener, and its body is
  `listener(...args); this.removeListener(eventNames, onceListener)`),
  and `.remover names target` models a client listener whose body is
  `emitter.removeListener(names, target)`;
* JavaScript numbers (`typeof n === 'number'`) as `JSNum`: `NaN`, the two
  infinities, and finite doubles as rationals; other runtime values and the
  `typeof` checks via `JSVal`;
* thrown `TypeError` / `RangeError` as `Except JSErr`;
* listener invocation as a fuel-indexed interpreter (`invoke` / `emit` /
  `removeListenerFn` are mutually recursive through the `"removeListener"`
  meta-emission, and the source can genuinely recurse unboundedly there, so
  the embedding returns `none` when the fuel runs out);
* `console.warn` in `addListener` is a pure diagnostic side channel: it
  mutates nothing and the source takes no branch on it, so it is not
  modelled;
* `listeners()` returns `Object.assign([], arr)`, a shallow copy; in the
  pure embedding lists are immutable, so the copy is the list itself.
-/

namespace Eventio

/-- A listener callable, compared by identity as in JavaScript.
`base id` is an opaque client function; `onceWrap names inner` is the
`onceListener` closure created by `once(names, inner, _)`; `remover names
target` is a client function whose body calls
`removeListener(names, target)` on the registry. -/
inductive Listener where
  | base (id : Nat)
  | onceWrap (names : String) (inner : Listener)
  | remover (names : String) (target : Listener)
deriving DecidableEq, Repr

/-- A JavaScript value of number type: `NaN`, `Infinity`, `-Infinity`, or a
finite double (embedded as a rational). -/
inductive JSNum where
  | nan
  | posInf
  | negInf
  | fin (q : ℚ)
deriving DecidableEq, Repr

/-- A JavaScript runtime value, as far as the source inspects one:
its `typeof` distinguishes numbers and functions; everything else is
lumped into `str` / `undef`. -/
inductive JSVal where
  | num (x : JSNum)
  | str (s : String)
  | fn (l : Listener)
  | undef
deriving DecidableEq, Repr

/-- The error kinds the source throws (`TypeError` / `RangeError`). -/
inductive JSErr where
  | typeError
  | rangeError
deriving DecidableEq, Repr

/-- A record of one function call performed during dispatch:
the listener invoked and the arguments it received. -/
abbrev Call := Listener × List JSVal

/-- The backing `Map<string, Function[]>`, as an insertion-ordered
association list. -/
abbrev EventMap := List (String × List Listener)

/-- `Map.prototype.get`. -/
def mapGet : EventMap → String → Option (List Listener)
  | [], _ => none
  | (k, v) :: rest, key => if k = key then some v else mapGet rest key

/-- `Map.prototype.set`: replace the value of an existing key in place,
else append the new entry at the end (JavaScript `Map` insertion order). -/
def mapSet : EventMap → String → List Listener → EventMap
  | [], key, v => [(key, v)]
  | (k, w) :: rest, key, v =>
      if k = key then (key, v) :: rest else (k, w) :: mapSet rest key v

/-- `Map.prototype.delete`. -/
def mapDelete : EventMap → String → EventMap
  | [], _ => []
  | (k, w) :: rest, key => if k = key then rest else (k, w) :: mapDelete rest key

/-- Split a character list at every single space, JavaScript
`String.prototype.split(' ')` style: no trimming, empty tokens kept,
`[]` yields one empty token. -/
def splitChars : List Char → List (List Char)
  | [] => [[]]
  | c :: rest =>
      if c = ' ' then [] :: splitChars rest
      else
        match splitChars rest with
        | [] => [[c]]
        | t :: ts => (c :: t) :: ts

/-- `eventNames.split(' ')` from the source: JavaScript `split` with the
one-character string separator `' '`. -/
def splitSpace (s : String) : List String :=
  (splitChars s.toList).map (fun cs => String.mk cs)

/-- The state of one `EventEmitter` object: the private `_eventMap` and
`_maxListeners` fields. -/
structure EventEmitter where
  eventMap : EventMap
  maxListeners : JSNum
deriving DecidableEq, Repr

/-- `EventEmitter.DEFAULT_MAX_LISTENERS = 10`. -/
def DEFAULT_MAX_LISTENERS : JSNum := .fin 10

/-- A freshly constructed emitter: empty map, default threshold. -/
def EventEmitter.new : EventEmitter :=
  { eventMap := [], maxListeners := DEFAULT_MAX_LISTENERS }

/-- `listeners(eventName)`: `Object.assign([], this._eventMap.get(String(eventName)))`
— a copy of the current sequence, or `[]` when the name is absent. -/
def listeners (st : EventEmitter) (eventName : String) : List Listener :=
  (mapGet st.eventMap eventName).getD []

/-- `listenerCount(eventName)`: the length of the stored sequence, `0` when
the name is absent. -/
def listenerCount (st : EventEmitter) (eventName : String) : Nat :=
  match mapGet st.eventMap eventName with
  | none => 0
  | some ls => ls.length

/-- `eventNames()`: `Array.from(this._eventMap.keys())`, in map insertion
order. -/
def eventNames (st : EventEmitter) : List String :=
  st.eventMap.map Prod.fst

/-- `removeAllListeners(eventName)`: `this._eventMap.delete(eventName)`. -/
def removeAllListeners (st : EventEmitter) (eventName : String) : EventEmitter :=
  { st with eventMap := mapDelete st.eventMap eventName }

/-- The per-name body of the `addListener` loop: create the entry if
absent, then `unshift` or `push` the listener.  (The `console.warn` leak
diagnostic that precedes this in the source mutates no state and is not
modelled.) -/
def addOne (st : EventEmitter) (eventName : String) (l : Listener)
    (prepend : Bool) : EventEmitter :=
  let m :=
    if (mapGet st.eventMap eventName).isSome then st.eventMap
    else mapSet st.eventMap eventName []
  let cur := (mapGet m eventName).getD []
  { st with eventMap := mapSet m eventName (if prepend then l :: cur else cur ++ [l]) }

/-- `addListener` after the callable check: iterate the split name list. -/
def addListenerFn (st : EventEmitter) (names : String) (l : Listener)
    (prepend : Bool) : EventEmitter :=
  (splitSpace names).foldl (fun s n => addOne s n l prepend) st

/-- `addListener(eventNames, listener, prepend = false)`: throws
`TypeError('listener must be a function')` when the supplied listener is
not callable, before touching any state; otherwise registers it under
every split name. -/
def addListener (st : EventEmitter) (names : String) (v : JSVal)
    (prepend : Bool) : Except JSErr EventEmitter :=
  match v with
  | .fn l => .ok (addListenerFn st names l prepend)
  | _ => .error .typeError

/-- `prependListener(eventNames, listener)` = `addListener(…, true)`. -/
def prependListener (st : EventEmitter) (names : String) (l : Listener) :
    EventEmitter :=
  addListenerFn st names l true

/-- `once(eventNames, listener, prepend = false)`: build the
`onceListener` adapter closing over the same `eventNames` string and
register the adapter. -/
def once (st : EventEmitter) (names : String) (l : Listener)
    (prepend : Bool) : EventEmitter :=
  addListenerFn st names (.onceWrap names l) prepend

/-- `prependOnce(eventNames, listener)` = `once(…, true)`. -/
def prependOnce (st : EventEmitter) (names : String) (l : Listener) :
    EventEmitter :=
  once st names l true

/-- The source guard `currentListeners !== newListeners` in
`removeListener`.  `!==` compares object references and
`Array.prototype.filter` always allocates a fresh array, so the two
references are never equal and the guard is always taken; the embedding
records that constant truth value. -/
def jsRefNeq (currentListeners newListeners : List Listener) : Bool :=
  true

mutual

/-- Apply one listener callable to `args` (the `Reflect.apply` in `emit`,
or a direct call such as `listener(...args)` inside the `once` adapter).
Returns the mutated registry and the log of every call performed, the
listener's own call first.  `none` means the fuel ran out. -/
def invoke : Nat → EventEmitter → Listener → List JSVal → Option (EventEmitter × List Call)
  | 0, _, _, _ => none
  | fuel + 1, st, .base i, args => some (st, [(.base i, args)])
  | fuel + 1, st, .onceWrap names inner, args => do
      let (st1, cs1) ← invoke fuel st inner args
      let (st2, cs2) ← removeListenerFn fuel st1 names (.onceWrap names inner)
      some (st2, (Listener.onceWrap names inner, args) :: (cs1 ++ cs2))
  | fuel + 1, st, .remover names target, args => do
      let (st1, cs1) ← removeListenerFn fuel st names target
      some (st1, (Listener.remover names target, args) :: cs1)

/-- The `listeners.forEach(listener => Reflect.apply(listener, this, args))`
loop of `emit`, over the pre-emission snapshot.  Returns the final
registry, the sequence of top-level applications the loop itself performed
(each snapshot element with `args`), and the full call log. -/
def emitList : Nat → EventEmitter → List Listener → List JSVal → Option (EventEmitter × List Call × List Call)
  | _, st, [], _ => some (st, [], [])
  | 0, _, _ :: _, _ => none
  | fuel + 1, st, l :: rest, args => do
      let (st1, cs) ← invoke fuel st l args
      let (st2, tops, cs2) ← emitList fuel st1 rest args
      some (st2, (l, args) :: tops, cs ++ cs2)

/-- `emit(eventName, ...args)`: snapshot the current sequence via
`listeners`, return `false` when the snapshot is empty, else invoke every
snapshot element in order and return `true`. -/
def emit : Nat → EventEmitter → String → List JSVal → Option (EventEmitter × Bool × List Call × List Call)
  | 0, _, _, _ => none
  | fuel + 1, st, eventName, args =>
      let snapshot := listeners st eventName
      if snapshot = [] then some (st, false, [], [])
      else do
        let (st1, tops, cs) ← emitList fuel st snapshot args
        some (st1, true, tops, cs)

/-- The per-name loop of `removeListener`: filter out every occurrence of
the listener; if the result is empty, delete the entry
(`removeAllListeners`) and `continue`; otherwise store the filtered array
and emit the `"removeListener"` meta-event (the source guard is
`jsRefNeq`, see there). -/
def removeNames : Nat → EventEmitter → List String → Listener → Option (EventEmitter × List Call)
  | _, st, [], _ => some (st, [])
  | 0, _, _ :: _, _ => none
  | fuel + 1, st, eventName :: rest, l =>
      let currentListeners := listeners st eventName
      let newListeners := currentListeners.filter (fun x => x ≠ l)
      if newListeners = [] then
        removeNames fuel (removeAllListeners st eventName) rest l
      else if jsRefNeq currentListeners newListeners then do
        let st1 := { st with eventMap := mapSet st.eventMap eventName newListeners }
        let (st2, _, _, cs) ← emit fuel st1 "removeListener" [.str eventName, .fn l]
        let (st3, cs2) ← removeNames fuel st2 rest l
        some (st3, cs ++ cs2)
      else
        removeNames fuel st rest l

/-- `removeListener` after the callable check: iterate the split name
list. -/
def removeListenerFn : Nat → EventEmitter → String → Listener → Option (EventEmitter × List Call)
  | 0, _, _, _ => none
  | fuel + 1, st, names, l => removeNames fuel st (splitSpace names) l

end

/-- `removeListener(eventNames, listener)`: throws
`TypeError('listener must be a function')` when the supplied listener is
not callable — before the loop, so before any mutation — else runs the
per-name removal loop.  `.ok none` means the interpreter fuel ran out. -/
def removeListener (fuel : Nat) (st : EventEmitter) (names : String)
    (v : JSVal) : Except JSErr (Option (EventEmitter × List Call)) :=
  match v with
  | .fn l => .ok (removeListenerFn fuel st names l)
  | _ => .error .typeError

/-- JavaScript `isNaN(n)` on a number. -/
def JSNum.isNaN : JSNum → Bool
  | .nan => true
  | _ => false

/-- JavaScript `n < 0` on a number (`NaN < 0` is `false`). -/
def JSNum.ltZero : JSNum → Bool
  | .nan => false
  | .posInf => false
  | .negInf => true
  | .fin q => decide (q < 0)

/-- JavaScript `n === 0` on a number. -/
def JSNum.eqZero : JSNum → Bool
  | .fin q => decide (q = 0)
  | _ => false

/-- The `maxListeners` setter: `TypeError` when the assigned value is not
of number type or is `NaN`; `RangeError` when it is negative; `0` stores
`Infinity`; otherwise the number is stored as given.  An error leaves the
emitter unchanged (the source throws before assigning). -/
def setMaxListeners (st : EventEmitter) (v : JSVal) : Except JSErr EventEmitter :=
  match v with
  | .num n =>
      if n.isNaN then .error .typeError
      else if n.ltZero then .error .rangeError
      else if n.eqZero then .ok { st with maxListeners := .posInf }
      else .ok { st with maxListeners := n }
  | _ => .error .typeError

/-- The documented registry invariant: a map entry exists for a name iff
its sequence is non-empty — equivalently, no stored sequence is empty. -/
def wfMap (m : EventMap) : Prop := ∀ p ∈ m, p.2 ≠ ([] : List Listener)

/-- `wf st`: the invariant on an emitter state. -/
def wf (st : EventEmitter) : Prop := wfMap st.eventMap

instance (m : EventMap) : Decidable (wfMap m) := by
  unfold wfMap; infer_instance

instance (st : EventEmitter) : Decidable (wf st) := by
  unfold wf; infer_instance

/-- `true` iff the listener is an opaque client callable (`.base`), one
whose invocation performs no registry mutation. -/
def Listener.isBase : Listener → Bool
  | .base _ => true
  | _ => false

/-- The keys of the backing map are pairwise distinct (always true of a
JavaScript `Map`; states of that shape are the reachable ones). -/
def keysNodup (st : EventEmitter) : Prop :=
  (st.eventMap.map Prod.fst).Nodup

instance (st : EventEmitter) : Decidable (keysNodup st) := by
  unfold keysNodup; infer_instance

theorem mapGet_mapSet_self (m : EventMap) (k : String) (v : List Listener) :
    mapGet (mapSet m k v) k = some v := by
  induction m with
  | nil => simp [mapSet, mapGet]
  | cons p rest ih =>
      obtain ⟨k1, w⟩ := p
      by_cases h : k1 = k
      · simp [mapSet, mapGet, h]
      · simp [mapSet, mapGet, h, ih]

theorem mapGet_mapSet_other (m : EventMap) (k k2 : String) (v : List Listener)
    (h : k2 ≠ k) : mapGet (mapSet m k v) k2 = mapGet m k2 := by
  induction m with
  | nil => simp [mapSet, mapGet, Ne.symm h]
  | cons p rest ih =>
      obtain ⟨k1, w⟩ := p
      by_cases h1 : k1 = k
      · subst h1
        simp [mapSet, mapGet, Ne.symm h]
      · by_cases h2 : k1 = k2
        · subst h2
          simp [mapSet, mapGet, h1]
        · simp [mapSet, mapGet, h1, h2, ih]

theorem mapSet_mapSet (m : EventMap) (k : String) (v w : List Listener) :
    mapSet (mapSet m k v) k w = mapSet m k w := by
  induction m with
  | nil => simp [mapSet]
  | cons p rest ih =>
      obtain ⟨k1, u⟩ := p
      by_cases h : k1 = k
      · simp [mapSet, h]
      · simp [mapSet, h, ih]

theorem mapSet_self (m : EventMap) (k : String) (v : List Listener)
    (h : mapGet m k = some v) : mapSet m k v = m := by
  induction m with
  | nil => simp [mapGet] at h
  | cons p rest ih =>
      obtain ⟨k1, u⟩ := p
      by_cases h1 : k1 = k
      · simp [mapGet, h1] at h
        simp [mapSet, h1, h]
      · simp [mapGet, h1] at h
        simp [mapSet, h1, ih h]

theorem mapSet_absent (m : EventMap) (k : String) (v : List Listener)
    (h : mapGet m k = none) : mapSet m k v = m ++ [(k, v)] := by
  induction m with
  | nil => simp [mapSet]
  | cons p rest ih =>
      obtain ⟨k1, u⟩ := p
      by_cases h1 : k1 = k
      · simp [mapGet, h1] at h
      · simp [mapGet, h1] at h
        simp [mapSet, h1, ih h]

theorem mapGet_mapDelete_other (m : EventMap) (k k2 : String)
    (h : k2 ≠ k) : mapGet (mapDelete m k) k2 = mapGet m k2 := by
  induction m with
  | nil => simp [mapDelete]
  | cons p rest ih =>
      obtain ⟨k1, u⟩ := p
      by_cases h1 : k1 = k
      · subst h1
        simp [mapDelete, mapGet, Ne.symm h]
      · by_cases h2 : k1 = k2
        · subst h2
          simp [mapDelete, mapGet, h1]
        · simp [mapDelete, mapGet, h1, h2, ih]

theorem mapDelete_append_absent (m : EventMap) (k : String) (v : List Listener)
    (h : mapGet m k = none) : mapDelete (m ++ [(k, v)]) k = m := by
  induction m with
  | nil => simp [mapDelete]
  | cons p rest ih =>
      obtain ⟨k1, u⟩ := p
      by_cases h1 : k1 = k
      · simp [mapGet, h1] at h
      · simp [mapGet, h1] at h
        simp [mapDelete, h1, ih h]

theorem mapDelete_absent (m : EventMap) (k : String)
    (h : mapGet m k = none) : mapDelete m k = m := by
  induction m with
  | nil => simp [mapDelete]
  | cons p rest ih =>
      obtain ⟨k1, u⟩ := p
      by_cases h1 : k1 = k
      · simp [mapGet, h1] at h
      · simp [mapGet, h1] at h
        simp [mapDelete, h1, ih h]

theorem mapGet_not_mem_keys (m : EventMap) (k : String)
    (h : k ∉ m.map Prod.fst) : mapGet m k = none := by
  induction m with
  | nil => simp [mapGet]
  | cons p rest ih =>
      obtain ⟨k1, u⟩ := p
      simp only [List.map_cons, List.mem_cons] at h
      push_neg at h
      simp [mapGet, Ne.symm h.1, ih h.2]

theorem mapGet_mapDelete_self_nodup (m : EventMap) (k : String)
    (h : (m.map Prod.fst).Nodup) : mapGet (mapDelete m k) k = none := by
  induction m with
  | nil => simp [mapDelete, mapGet]
  | cons p rest ih =>
      obtain ⟨k1, u⟩ := p
      simp only [List.map_cons, List.nodup_cons] at h
      by_cases h1 : k1 = k
      · subst h1
        simp only [mapDelete, if_pos rfl]
        exact mapGet_not_mem_keys rest k1 h.1
      · simp [mapDelete, mapGet, h1, ih h.2]

theorem mem_keys_of_mapGet_isSome (m : EventMap) (k : String)
    (h : (mapGet m k).isSome) : k ∈ m.map Prod.fst := by
  induction m with
  | nil => simp [mapGet] at h
  | cons p rest ih =>
      obtain ⟨k1, u⟩ := p
      by_cases h1 : k1 = k
      · simp [h1]
      · simp only [mapGet, if_neg h1] at h
        simp [ih h]

theorem wfMap_mapSet (m : EventMap) (k : String) (v : List Listener)
    (h : wfMap m) (hv : v ≠ []) : wfMap (mapSet m k v) := by
  induction m with
  | nil =>
      intro p hp
      simp [mapSet] at hp
      simp [hp, hv]
  | cons q rest ih =>
      obtain ⟨k1, u⟩ := q
      intro p hp
      by_cases h1 : k1 = k
      · simp only [mapSet, if_pos h1, List.mem_cons] at hp
        rcases hp with hp | hp
        · simp [hp, hv]
        · exact h p (List.mem_cons_of_mem _ hp)
      · simp only [mapSet, if_neg h1, List.mem_cons] at hp
        rcases hp with hp | hp
        · exact h p (hp ▸ List.mem_cons_self _ _)
        · exact ih (fun r hr => h r (List.mem_cons_of_mem _ hr)) p hp

theorem wfMap_mapDelete (m : EventMap) (k : String)
    (h : wfMap m) : wfMap (mapDelete m k) := by
  induction m with
  | nil => intro p hp; simp [mapDelete] at hp
  | cons q rest ih =>
      obtain ⟨k1, u⟩ := q
      intro p hp
      by_cases h1 : k1 = k
      · simp only [mapDelete, if_pos h1] at hp
        exact h p (List.mem_cons_of_mem _ hp)
      · simp only [mapDelete, if_neg h1, List.mem_cons] at hp
        rcases hp with hp | hp
        · exact h p (hp ▸ List.mem_cons_self _ _)
        · exact ih (fun r hr => h r (List.mem_cons_of_mem _ hr)) p hp

theorem keys_mapSet (m : EventMap) (k : String) (v : List Listener) :
    (mapSet m k v).map Prod.fst =
      if (mapGet m k).isSome then m.map Prod.fst else m.map Prod.fst ++ [k] := by
  induction m with
  | nil => simp [mapSet, mapGet]
  | cons q rest ih =>
      obtain ⟨k1, u⟩ := q
      by_cases h1 : k1 = k
      · simp [mapSet, mapGet, h1]
      · have hg : mapGet ((k1, u) :: rest) k = mapGet rest k := by
          simp [mapGet, h1]
        rw [hg]
        simp only [mapSet, if_neg h1, List.map_cons]
        rw [ih]
        by_cases h2 : (mapGet rest k).isSome
        · simp [h2]
        · simp [h2]

theorem not_mem_keys_of_mapGet_none (m : EventMap) (k : String)
    (h : mapGet m k = none) : k ∉ m.map Prod.fst := by
  induction m with
  | nil => simp
  | cons q rest ih =>
      obtain ⟨k1, u⟩ := q
      by_cases h1 : k1 = k
      · simp [mapGet, h1] at h
      · simp only [mapGet, if_neg h1] at h
        simp [Ne.symm h1, ih h]

theorem keysNodup_mapSet (st : EventEmitter) (k : String) (v : List Listener)
    (h : keysNodup st) :
    ((mapSet st.eventMap k v).map Prod.fst).Nodup := by
  rw [keys_mapSet]
  by_cases hs : (mapGet st.eventMap k).isSome
  · simpa [hs] using h
  · have hget : mapGet st.eventMap k = none := by
      cases hg : mapGet st.eventMap k
      · rfl
      · simp [hg] at hs
    have hk := not_mem_keys_of_mapGet_none st.eventMap k hget
    simp only [if_neg hs, List.nodup_append, List.nodup_singleton]
    refine ⟨h, trivial, fun a ha hb => ?_⟩
    have ha2 : a = k := by simpa using hb
    exact hk (ha2 ▸ ha)

/-- Normal form of `addOne`: whatever branch ran, the map ends up with the
name bound to the old sequence with the listener prepended or appended. -/
theorem addOne_eventMap (st : EventEmitter) (n : String) (l : Listener) (p : Bool) :
    (addOne st n l p).eventMap =
      mapSet st.eventMap n (if p then l :: listeners st n else listeners st n ++ [l]) := by
  unfold addOne listeners
  cases h : mapGet st.eventMap n with
  | none =>
      simp only [h, Option.isSome_none, Bool.false_eq_true, if_false,
        mapGet_mapSet_self, Option.getD_some, Option.getD_none, mapSet_mapSet]
  | some cur =>
      simp [h]

theorem addOne_maxListeners (st : EventEmitter) (n : String) (l : Listener) (p : Bool) :
    (addOne st n l p).maxListeners = st.maxListeners := by
  unfold addOne
  rfl

theorem listeners_addOne_self (st : EventEmitter) (n : String) (l : Listener) (p : Bool) :
    listeners (addOne st n l p) n =
      if p then l :: listeners st n else listeners st n ++ [l] := by
  unfold listeners
  rw [addOne_eventMap, mapGet_mapSet_self]
  rfl

theorem listeners_addOne_other (st : EventEmitter) (n n2 : String) (l : Listener)
    (p : Bool) (h : n2 ≠ n) :
    listeners (addOne st n l p) n2 = listeners st n2 := by
  unfold listeners
  rw [addOne_eventMap, mapGet_mapSet_other _ _ _ _ h]

theorem wf_addOne (st : EventEmitter) (n : String) (l : Listener) (p : Bool)
    (h : wf st) : wf (addOne st n l p) := by
  unfold wf
  rw [addOne_eventMap]
  apply wfMap_mapSet _ _ _ h
  cases p <;> simp

theorem keysNodup_addOne (st : EventEmitter) (n : String) (l : Listener) (p : Bool)
    (h : keysNodup st) : keysNodup (addOne st n l p) := by
  unfold keysNodup
  rw [addOne_eventMap]
  exact keysNodup_mapSet st n _ h

theorem wf_addListenerFn (st : EventEmitter) (names : String) (l : Listener)
    (p : Bool) (h : wf st) : wf (addListenerFn st names l p) := by
  unfold addListenerFn
  induction splitSpace names generalizing st with
  | nil => exact h
  | cons t ts ih => exact ih (addOne st t l p) (wf_addOne st t l p h)

theorem listenerCount_eq_length (st : EventEmitter) (n : String) :
    listenerCount st n = (listeners st n).length := by
  unfold listenerCount listeners
  cases mapGet st.eventMap n <;> rfl

theorem mem_of_mapGet_eq_some (m : EventMap) (k : String) (v : List Listener)
    (h : mapGet m k = some v) : (k, v) ∈ m := by
  induction m with
  | nil => simp [mapGet] at h
  | cons q rest ih =>
      obtain ⟨k1, u⟩ := q
      by_cases h1 : k1 = k
      · subst h1
        simp [mapGet] at h
        simp [h]
      · simp only [mapGet, if_neg h1] at h
        exact List.mem_cons_of_mem _ (ih h)

theorem mapGet_eq_none_of_wf (st : EventEmitter) (n : String)
    (h : wf st) (hl : listeners st n = []) : mapGet st.eventMap n = none := by
  cases hg : mapGet st.eventMap n with
  | none => rfl
  | some cur =>
      exfalso
      have hcur := h (n, cur) (mem_of_mapGet_eq_some st.eventMap n cur hg)
      unfold listeners at hl
      rw [hg] at hl
      simp at hl
      exact hcur hl

theorem isBase_elim (l : Listener) (h : l.isBase = true) : ∃ i, l = .base i := by
  cases l with
  | base i => exact ⟨i, rfl⟩
  | onceWrap names inner => simp [Listener.isBase] at h
  | remover names target => simp [Listener.isBase] at h

theorem filter_ne_of_not_mem (L : List Listener) (f : Listener) (h : f ∉ L) :
    L.filter (fun x => x ≠ f) = L := by
  apply List.filter_eq_self.mpr
  intro a ha
  simp only [ne_eq, decide_not, Bool.not_eq_eq_eq_not, Bool.not_true, decide_eq_false_iff_not]
  intro he
  exact h (he ▸ ha)

theorem invoke_base (fuel : Nat) (st : EventEmitter) (i : Nat) (args : List JSVal) :
    invoke (fuel + 1) st (.base i) args = some (st, [(.base i, args)]) := by
  simp [invoke]

theorem emitList_base (L : List Listener) :
    ∀ (fuel : Nat) (st : EventEmitter) (args : List JSVal),
      (∀ l ∈ L, l.isBase = true) → L.length < fuel →
      emitList fuel st L args =
        some (st, L.map (fun l => (l, args)), L.map (fun l => (l, args))) := by
  induction L with
  | nil =>
      intro fuel st args _ _
      cases fuel <;> simp [emitList]
  | cons l rest ih =>
      intro fuel st args hbase hfuel
      obtain ⟨f2, rfl⟩ : ∃ f2, fuel = f2 + 1 := ⟨fuel - 1, by omega⟩
      obtain ⟨i, rfl⟩ := isBase_elim l (hbase l (List.mem_cons_self _ _))
      obtain ⟨f3, rfl⟩ : ∃ f3, f2 = f3 + 1 := ⟨f2 - 1, by simp at hfuel; omega⟩
      simp only [emitList, invoke_base, Option.bind_eq_bind, Option.some_bind]
      rw [ih (f3 + 1) st args (fun x hx => hbase x (List.mem_cons_of_mem _ hx))
        (by simp at hfuel; omega)]
      simp

theorem emitList_tops (L : List Listener) :
    ∀ (fuel : Nat) (st : EventEmitter) (args : List JSVal) st2 tops calls,
      emitList fuel st L args = some (st2, tops, calls) →
      tops = L.map (fun l => (l, args)) := by
  induction L with
  | nil =>
      intro fuel st args st2 tops calls h
      cases fuel <;> simp [emitList] at h <;> simp [h]
  | cons l rest ih =>
      intro fuel st args st2 tops calls h
      cases fuel with
      | zero => simp [emitList] at h
      | succ f2 =>
          simp only [emitList, Option.bind_eq_bind] at h
          cases h1 : invoke f2 st l args with
          | none => rw [h1] at h; simp at h
          | some r1 =>
              obtain ⟨st1, cs⟩ := r1
              rw [h1] at h
              simp only [Option.some_bind] at h
              cases h2 : emitList f2 st1 rest args with
              | none => rw [h2] at h; simp at h
              | some r2 =>
                  obtain ⟨st3, tops2, cs2⟩ := r2
                  rw [h2] at h
                  simp only [Option.some_bind, Option.some.injEq, Prod.mk.injEq] at h
                  rw [← h.2.1]
                  simp [ih f2 st1 args st3 tops2 cs2 h2]

theorem emit_eq_empty (fuel : Nat) (st : EventEmitter) (n : String) (args : List JSVal)
    (h : listeners st n = []) :
    emit (fuel + 1) st n args = some (st, false, [], []) := by
  simp [emit, h]

theorem emit_base_nonempty (fuel : Nat) (st : EventEmitter) (n : String) (args : List JSVal)
    (hbase : ∀ l ∈ listeners st n, l.isBase = true)
    (hne : listeners st n ≠ [])
    (hfuel : (listeners st n).length < fuel) :
    emit (fuel + 1) st n args =
      some (st, true, (listeners st n).map (fun l => (l, args)),
            (listeners st n).map (fun l => (l, args))) := by
  simp only [emit, if_neg hne]
  rw [emitList_base (listeners st n) fuel st args hbase hfuel]
  simp

theorem emit_base_generic (fuel : Nat) (st : EventEmitter) (n : String) (args : List JSVal)
    (hbase : ∀ l ∈ listeners st n, l.isBase = true)
    (hfuel : (listeners st n).length + 2 ≤ fuel) :
    ∃ b tops calls, emit fuel st n args = some (st, b, tops, calls) ∧
      ∀ c ∈ calls, c.1 ∈ listeners st n := by
  obtain ⟨f2, rfl⟩ : ∃ f2, fuel = f2 + 1 := ⟨fuel - 1, by omega⟩
  by_cases hne : listeners st n = []
  · exact ⟨false, [], [], emit_eq_empty f2 st n args hne, by simp⟩
  · refine ⟨true, _, _, emit_base_nonempty f2 st n args hbase hne (by omega), ?_⟩
    intro c hc
    simp only [List.mem_map] at hc
    obtain ⟨l, hl, rfl⟩ := hc
    exact hl

/-- Bundled invariant preservation for the fuel-indexed interpreter: every
successful run of `invoke`, `emitList`, `emit`, `removeNames` or
`removeListenerFn` preserves the no-empty-sequence invariant. -/
theorem wf_interp (fuel : Nat) :
    (∀ st l args r, wf st → invoke fuel st l args = some r → wf r.1) ∧
    (∀ st L args r, wf st → emitList fuel st L args = some r → wf r.1) ∧
    (∀ st n args r, wf st → emit fuel st n args = some r → wf r.1) ∧
    (∀ st ns l r, wf st → removeNames fuel st ns l = some r → wf r.1) ∧
    (∀ st names l r, wf st → removeListenerFn fuel st names l = some r → wf r.1) := by
  induction fuel with
  | zero =>
      refine ⟨?_, ?_, ?_, ?_, ?_⟩
      · intro st l args r hwf h
        simp [invoke] at h
      · intro st L args r hwf h
        cases L with
        | nil =>
            simp only [emitList, Option.some.injEq] at h
            rw [← h]
            exact hwf
        | cons x xs => simp [emitList] at h
      · intro st n args r hwf h
        simp [emit] at h
      · intro st ns l r hwf h
        cases ns with
        | nil =>
            simp only [removeNames, Option.some.injEq] at h
            rw [← h]
            exact hwf
        | cons x xs => simp [removeNames] at h
      · intro st names l r hwf h
        simp [removeListenerFn] at h
  | succ f ih =>
      obtain ⟨ihInv, ihEL, ihEm, ihRN, ihRL⟩ := ih
      refine ⟨?_, ?_, ?_, ?_, ?_⟩
      · intro st l args r hwf h
        cases l with
        | base i =>
            simp only [invoke, Option.some.injEq] at h
            rw [← h]
            exact hwf
        | onceWrap names inner =>
            simp only [invoke, Option.bind_eq_bind] at h
            cases h1 : invoke f st inner args with
            | none => rw [h1] at h; simp at h
            | some r1 =>
                obtain ⟨st1, cs1⟩ := r1
                rw [h1] at h
                simp only [Option.some_bind] at h
                cases h2 : removeListenerFn f st1 names (.onceWrap names inner) with
                | none => rw [h2] at h; simp at h
                | some r2 =>
                    obtain ⟨st2, cs2⟩ := r2
                    rw [h2] at h
                    simp only [Option.some_bind, Option.some.injEq] at h
                    rw [← h]
                    exact ihRL st1 names _ (st2, cs2) (ihInv st inner args (st1, cs1) hwf h1) h2
        | remover names target =>
            simp only [invoke, Option.bind_eq_bind] at h
            cases h1 : removeListenerFn f st names target with
            | none => rw [h1] at h; simp at h
            | some r1 =>
                obtain ⟨st1, cs1⟩ := r1
                rw [h1] at h
                simp only [Option.some_bind, Option.some.injEq] at h
                rw [← h]
                exact ihRL st names target (st1, cs1) hwf h1
      · intro st L args r hwf h
        cases L with
        | nil =>
            simp only [emitList, Option.some.injEq] at h
            rw [← h]
            exact hwf
        | cons x xs =>
            simp only [emitList, Option.bind_eq_bind] at h
            cases h1 : invoke f st x args with
            | none => rw [h1] at h; simp at h
            | some r1 =>
                obtain ⟨st1, cs1⟩ := r1
                rw [h1] at h
                simp only [Option.some_bind] at h
                cases h2 : emitList f st1 xs args with
                | none => rw [h2] at h; simp at h
                | some r2 =>
                    obtain ⟨st2, tops2, cs2⟩ := r2
                    rw [h2] at h
                    simp only [Option.some_bind, Option.some.injEq] at h
                    rw [← h]
                    exact ihEL st1 xs args (st2, tops2, cs2) (ihInv st x args (st1, cs1) hwf h1) h2
      · intro st n args r hwf h
        simp only [emit] at h
        by_cases hs : listeners st n = []
        · rw [if_pos hs] at h
          simp only [Option.some.injEq] at h
          rw [← h]
          exact hwf
        · rw [if_neg hs] at h
          simp only [Option.bind_eq_bind] at h
          cases h1 : emitList f st (listeners st n) args with
          | none => rw [h1] at h; simp at h
          | some r1 =>
              obtain ⟨st1, tops1, cs1⟩ := r1
              rw [h1] at h
              simp only [Option.some_bind, Option.some.injEq] at h
              rw [← h]
              exact ihEL st (listeners st n) args (st1, tops1, cs1) hwf h1
      · intro st ns l r hwf h
        cases ns with
        | nil =>
            simp only [removeNames, Option.some.injEq] at h
            rw [← h]
            exact hwf
        | cons n rest =>
            simp only [removeNames] at h
            by_cases hb : (listeners st n).filter (fun x => x ≠ l) = []
            · rw [if_pos hb] at h
              have hwf2 : wf (removeAllListeners st n) := wfMap_mapDelete st.eventMap n hwf
              exact ihRN (removeAllListeners st n) rest l r hwf2 h
            · rw [if_neg hb] at h
              simp only [jsRefNeq, if_true, Option.bind_eq_bind] at h
              cases h1 : emit f { st with eventMap := mapSet st.eventMap n ((listeners st n).filter (fun x => x ≠ l)) } "removeListener" [.str n, .fn l] with
              | none => rw [h1] at h; simp at h
              | some r1 =>
                  obtain ⟨st1, b1, tops1, cs1⟩ := r1
                  rw [h1] at h
                  simp only [Option.some_bind] at h
                  cases h2 : removeNames f st1 rest l with
                  | none => rw [h2] at h; simp at h
                  | some r2 =>
                      obtain ⟨st2, cs2⟩ := r2
                      rw [h2] at h
                      simp only [Option.some_bind, Option.some.injEq] at h
                      rw [← h]
                      have hwf1 : wf { st with eventMap := mapSet st.eventMap n ((listeners st n).filter (fun x => x ≠ l)) } :=
                        wfMap_mapSet st.eventMap n _ hwf hb
                      exact ihRN st1 rest l (st2, cs2)
                        (ihEm _ "removeListener" [.str n, .fn l] (st1, b1, tops1, cs1) hwf1 h1) h2
      · intro st names l r hwf h
        simp only [removeListenerFn] at h
        exact ihRN st (splitSpace names) l r hwf h

theorem filter_idem (L : List Listener) (p : Listener → Bool) :
    (L.filter p).filter p = L.filter p :=
  List.filter_eq_self.mpr (fun a ha => (List.mem_filter.mp ha).2)

theorem keys_mapDelete_sublist (m : EventMap) (k : String) :
    ((mapDelete m k).map Prod.fst).Sublist (m.map Prod.fst) := by
  induction m with
  | nil => simp [mapDelete]
  | cons q rest ih =>
      obtain ⟨k1, u⟩ := q
      by_cases h1 : k1 = k
      · simp only [mapDelete, if_pos h1, List.map_cons]
        exact List.sublist_cons_of_sublist k1 (List.Sublist.refl _)
      · simp only [mapDelete, if_neg h1, List.map_cons]
        exact List.Sublist.cons₂ k1 ih

theorem keysNodup_mapDelete (m : EventMap) (k : String)
    (h : (m.map Prod.fst).Nodup) : ((mapDelete m k).map Prod.fst).Nodup :=
  h.sublist (keys_mapDelete_sublist m k)

theorem removeNames_single_empty (fuel : Nat) (st : EventEmitter) (n : String)
    (l : Listener) (h : (listeners st n).filter (fun x => x ≠ l) = []) :
    removeNames (fuel + 1) st [n] l = some (removeAllListeners st n, []) := by
  simp only [removeNames, if_pos h]

theorem removeNames_single_emit (fuel : Nat) (st : EventEmitter) (n : String)
    (l : Listener) (st2 : EventEmitter) (b : Bool) (tops cs : List Call)
    (hne : (listeners st n).filter (fun x => x ≠ l) ≠ [])
    (hemit : emit fuel
        { st with eventMap := mapSet st.eventMap n ((listeners st n).filter (fun x => x ≠ l)) }
        "removeListener" [.str n, .fn l] = some (st2, b, tops, cs)) :
    removeNames (fuel + 1) st [n] l = some (st2, cs) := by
  simp only [removeNames, if_neg hne, jsRefNeq, if_true, Option.bind_eq_bind]
  rw [hemit]
  simp only [Option.some_bind]
  simp

theorem emitList_base_front (L : List Listener) :
    ∀ (fuel : Nat) (st : EventEmitter) (R : List Listener) (args : List JSVal),
      (∀ l ∈ L, l.isBase = true) → L.length < fuel →
      emitList fuel st (L ++ R) args =
        (emitList (fuel - L.length) st R args).map
          (fun r => (r.1, L.map (fun l => (l, args)) ++ r.2.1,
                     L.map (fun l => (l, args)) ++ r.2.2)) := by
  induction L with
  | nil =>
      intro fuel st R args _ _
      cases h : emitList fuel st R args <;> simp [h]
  | cons l L2 ih =>
      intro fuel st R args hbase hfuel
      obtain ⟨f2, rfl⟩ : ∃ f2, fuel = f2 + 1 := ⟨fuel - 1, by omega⟩
      obtain ⟨i, rfl⟩ := isBase_elim l (hbase l (List.mem_cons_self _ _))
      obtain ⟨f3, rfl⟩ : ∃ f3, f2 = f3 + 1 := ⟨f2 - 1, by simp at hfuel; omega⟩
      simp only [List.cons_append, emitList, invoke_base, Option.bind_eq_bind,
        Option.some_bind, List.append_eq]
      rw [ih (f3 + 1) st R args (fun x hx => hbase x (List.mem_cons_of_mem _ hx))
        (by simp at hfuel; omega)]
      cases h : emitList (f3 + 1 - L2.length) st R args with
      | none => simp [h]
      | some r => simp [h]

theorem emitList_base_inv (L : List Listener) :
    ∀ (fuel : Nat) (st : EventEmitter) (args : List JSVal) r,
      (∀ l ∈ L, l.isBase = true) →
      emitList fuel st L args = some r →
      r = (st, L.map (fun l => (l, args)), L.map (fun l => (l, args))) := by
  induction L with
  | nil =>
      intro fuel st args r _ h
      cases fuel <;> simp only [emitList, Option.some.injEq] at h <;> simp [← h]
  | cons l rest ih =>
      intro fuel st args r hbase h
      cases fuel with
      | zero => simp [emitList] at h
      | succ f2 =>
          obtain ⟨i, rfl⟩ := isBase_elim l (hbase l (List.mem_cons_self _ _))
          cases f2 with
          | zero => simp [emitList, invoke] at h
          | succ f3 =>
              simp only [emitList, invoke_base, Option.bind_eq_bind, Option.some_bind] at h
              cases h2 : emitList (f3 + 1) st rest args with
              | none => rw [h2] at h; simp at h
              | some r2 =>
                  rw [h2] at h
                  have := ih (f3 + 1) st args r2
                    (fun x hx => hbase x (List.mem_cons_of_mem _ hx)) h2
                  simp only [Option.some_bind, Option.some.injEq] at h
                  rw [← h, this]
                  simp

theorem emit_base_inv (fuel : Nat) (st : EventEmitter) (n : String)
    (args : List JSVal) (st2 : EventEmitter) (b : Bool) (tops calls : List Call)
    (hbase : ∀ l ∈ listeners st n, l.isBase = true)
    (h : emit fuel st n args = some (st2, b, tops, calls)) :
    st2 = st ∧ calls = (listeners st n).map (fun l => (l, args)) := by
  cases fuel with
  | zero => simp [emit] at h
  | succ f =>
      simp only [emit] at h
      by_cases hs : listeners st n = []
      · rw [if_pos hs] at h
        simp only [Option.some.injEq, Prod.mk.injEq] at h
        exact ⟨h.1.symm, by rw [hs, ← h.2.2.2]; simp⟩
      · rw [if_neg hs] at h
        simp only [Option.bind_eq_bind] at h
        cases h1 : emitList f st (listeners st n) args with
        | none => rw [h1] at h; simp at h
        | some r1 =>
            rw [h1] at h
            have hr := emitList_base_inv (listeners st n) f st args r1 hbase h1
            obtain ⟨st1, tops1, cs1⟩ := r1
            simp only [Prod.mk.injEq] at hr
            simp only [Option.some_bind, Option.some.injEq, Prod.mk.injEq] at h
            exact ⟨h.1.symm.trans hr.1, h.2.2.2.symm.trans hr.2.2⟩

theorem once_eq_addListenerFn (st : EventEmitter) (names : String) (l : Listener)
    (p : Bool) : once st names l p = addListenerFn st names (.onceWrap names l) p := rfl

/-- C6: every operation of the registry — `addListener`, `once`,
`removeAllListeners`, `removeListener` and `emit` — preserves the invariant
that a mapping entry exists for an event name iff its listener sequence is
non-empty: an operation that would leave a sequence empty deletes the entry
instead (`wf` states it as: no stored sequence is empty; `listeners` of an
absent name is `[]` by definition). -/
theorem invariant_entry_iff_nonempty (st : EventEmitter) (h : wf st) :
    (∀ names l p, wf (addListenerFn st names l p)) ∧
    (∀ names l p, wf (once st names l p)) ∧
    (∀ n, wf (removeAllListeners st n)) ∧
    (∀ fuel names l r, removeListenerFn fuel st names l = some r → wf r.1) ∧
    (∀ fuel n args r, emit fuel st n args = some r → wf r.1) := by
  refine ⟨fun names l p => wf_addListenerFn st names l p h,
          fun names l p => ?_,
          fun n => wfMap_mapDelete st.eventMap n h,
          fun fuel names l r hr => (wf_interp fuel).2.2.2.2 st names l r h hr,
          fun fuel n args r hr => (wf_interp fuel).2.2.1 st n args r h hr⟩
  rw [once_eq_addListenerFn]
  exact wf_addListenerFn st names (.onceWrap names l) p h

theorem invariant_entry_iff_nonempty_witness :
    wf (addListenerFn ⟨[("e", [.base 0])], .fin 10⟩ "e f" (.base 1) false) :=
  (invariant_entry_iff_nonempty ⟨[("e", [.base 0])], .fin 10⟩ (by decide)).1
    "e f" (.base 1) false

/-- C5: `emit` snapshots the listener sequence before invoking anything:
whenever an emit run succeeds, the sequence of top-level listener
applications it performed is exactly the sequence registered for that name
at the moment the call started, each applied to the emitted arguments —
whatever additions or removals listeners perform during the emission. -/
theorem emit_invokes_start_snapshot (fuel : Nat) (st : EventEmitter) (n : String)
    (args : List JSVal) (st2 : EventEmitter) (b : Bool) (tops calls : List Call)
    (h : emit fuel st n args = some (st2, b, tops, calls)) :
    tops = (listeners st n).map (fun l => (l, args)) := by
  cases fuel with
  | zero => simp [emit] at h
  | succ f =>
      simp only [emit] at h
      by_cases hs : listeners st n = []
      · rw [if_pos hs] at h
        simp only [Option.some.injEq, Prod.mk.injEq] at h
        rw [hs]
        simp [← h.2.2.1]
      · rw [if_neg hs] at h
        simp only [Option.bind_eq_bind] at h
        cases h1 : emitList f st (listeners st n) args with
        | none => rw [h1] at h; simp at h
        | some r1 =>
            obtain ⟨st1, tops1, cs1⟩ := r1
            rw [h1] at h
            simp only [Option.some_bind, Option.some.injEq, Prod.mk.injEq] at h
            rw [← h.2.2.1]
            exact emitList_tops (listeners st n) f st args st1 tops1 cs1 h1

theorem emit_invokes_start_snapshot_witness :
    emit 20 ⟨[("e", [.remover "e" (.base 1), .base 1])], .fin 10⟩ "e" [] =
      some (⟨[("e", [.remover "e" (.base 1)])], .fin 10⟩, true,
            [(.remover "e" (.base 1), []), (.base 1, [])],
            [(.remover "e" (.base 1), []), (.base 1, [])]) ∧
    [(Listener.remover "e" (.base 1), ([] : List JSVal)), (.base 1, [])] =
      (listeners ⟨[("e", [.remover "e" (.base 1), .base 1])], .fin 10⟩ "e").map
        (fun l => (l, ([] : List JSVal))) :=
  ⟨rfl,
   emit_invokes_start_snapshot 20 ⟨[("e", [.remover "e" (.base 1), .base 1])], .fin 10⟩
     "e" [] ⟨[("e", [.remover "e" (.base 1)])], .fin 10⟩ true
     [(.remover "e" (.base 1), []), (.base 1, [])]
     [(.remover "e" (.base 1), []), (.base 1, [])] rfl⟩

/-- C3: when no listeners are registered for a name, `emit` returns `false`
and performs no invocation; when at least one is registered (opaque client
callables), it applies every listener of the name exactly once, in sequence
order, passing the argument list unchanged to each, and returns `true`. -/
theorem emit_return_value_and_call_order (st : EventEmitter) (n : String)
    (args : List JSVal) (fuel : Nat)
    (hbase : ∀ l ∈ listeners st n, l.isBase = true)
    (hfuel : (listeners st n).length + 1 < fuel) :
    (listeners st n = [] → emit fuel st n args = some (st, false, [], [])) ∧
    (listeners st n ≠ [] →
      emit fuel st n args =
        some (st, true, (listeners st n).map (fun l => (l, args)),
              (listeners st n).map (fun l => (l, args)))) := by
  obtain ⟨f2, rfl⟩ : ∃ f2, fuel = f2 + 1 := ⟨fuel - 1, by omega⟩
  exact ⟨fun hs => emit_eq_empty f2 st n args hs,
         fun hs => emit_base_nonempty f2 st n args hbase hs (by omega)⟩

theorem emit_return_value_and_call_order_witness :
    (∀ l ∈ listeners ⟨[("e", [.base 0, .base 1])], .fin 10⟩ "e", l.isBase = true) ∧
    emit 10 ⟨[("e", [.base 0, .base 1])], .fin 10⟩ "e" [.str "x"] =
      some (⟨[("e", [.base 0, .base 1])], .fin 10⟩, true,
            [(.base 0, [.str "x"]), (.base 1, [.str "x"])],
            [(.base 0, [.str "x"]), (.base 1, [.str "x"])]) ∧
    emit 10 ⟨[("e", [.base 0, .base 1])], .fin 10⟩ "other" [.str "x"] =
      some (⟨[("e", [.base 0, .base 1])], .fin 10⟩, false, [], []) :=
  ⟨by decide,
   (emit_return_value_and_call_order ⟨[("e", [.base 0, .base 1])], .fin 10⟩ "e"
      [.str "x"] 10 (by decide) (by decide)).2 (by decide),
   (emit_return_value_and_call_order ⟨[("e", [.base 0, .base 1])], .fin 10⟩ "other"
      [.str "x"] 10 (by decide) (by decide)).1 (by decide)⟩

/-- C2 (counterexample): assigning `Infinity` to `maxListeners` — a number
value that is not finite — does not fail with a TypeError-kind error as the
claim states: the setter accepts it and stores it (the source only rejects
non-numbers and `NaN`). -/
theorem setMaxListeners_accepts_infinity :
    setMaxListeners EventEmitter.new (.num .posInf) =
      .ok { eventMap := [], maxListeners := .posInf } ∧
    ∀ e, setMaxListeners EventEmitter.new (.num .posInf) ≠ .error e := by
  refine ⟨rfl, fun e h => ?_⟩
  rw [show setMaxListeners EventEmitter.new (.num .posInf) =
        .ok { eventMap := [], maxListeners := .posInf } from rfl] at h
  simp at h

/-- C2 (amended): the `maxListeners` setter fails with a TypeError-kind
error exactly when the assigned value is not of number type or is `NaN`; it
fails with a RangeError-kind error when the value is a negative number
(negative infinity included); on failure no new state is produced, so the
previously stored value is unchanged; assigning exactly `0` stores the
unbounded sentinel (positive infinity); and every other non-negative number
— positive infinity included — is stored as given. -/
theorem setMaxListeners_spec (st : EventEmitter) :
    (∀ v : JSVal, (∀ x, v ≠ .num x) → setMaxListeners st v = .error .typeError) ∧
    setMaxListeners st (.num .nan) = .error .typeError ∧
    (∀ x : JSNum, x.ltZero = true → setMaxListeners st (.num x) = .error .rangeError) ∧
    setMaxListeners st (.num (.fin 0)) = .ok { st with maxListeners := .posInf } ∧
    setMaxListeners st (.num .posInf) = .ok { st with maxListeners := .posInf } ∧
    (∀ q : ℚ, 0 < q → setMaxListeners st (.num (.fin q)) = .ok { st with maxListeners := .fin q }) := by
  refine ⟨fun v hv => ?_, rfl, fun x hx => ?_, ?_, rfl, fun q hq => ?_⟩
  · cases v with
    | num x => exact absurd rfl (hv x)
    | str s2 => rfl
    | fn l => rfl
    | undef => rfl
  · cases x with
    | nan => simp [JSNum.ltZero] at hx
    | posInf => simp [JSNum.ltZero] at hx
    | negInf => rfl
    | fin q =>
        simp only [JSNum.ltZero, decide_eq_true_eq] at hx
        simp [setMaxListeners, JSNum.isNaN, JSNum.ltZero, hx]
  · simp [setMaxListeners, JSNum.isNaN, JSNum.ltZero, JSNum.eqZero]
  · have h1 : ¬ q < 0 := by linarith
    have h2 : ¬ q = 0 := by linarith
    simp [setMaxListeners, JSNum.isNaN, JSNum.ltZero, JSNum.eqZero, h1, h2]

theorem setMaxListeners_spec_witness :
    setMaxListeners EventEmitter.new .undef = .error .typeError ∧
    setMaxListeners EventEmitter.new (.num (.fin (-1))) = .error .rangeError ∧
    setMaxListeners EventEmitter.new (.num (.fin 3)) =
      .ok { eventMap := [], maxListeners := .fin 3 } :=
  ⟨(setMaxListeners_spec EventEmitter.new).1 .undef (fun x => by simp),
   (setMaxListeners_spec EventEmitter.new).2.2.1 (.fin (-1)) (by decide),
   (setMaxListeners_spec EventEmitter.new).2.2.2.2.2 3 (by norm_num)⟩

/-- C9: a value that is not callable, supplied as the listener, makes both
`addListener` and `removeListener` throw the InvalidArgument-kind error (the
source's `TypeError('listener must be a function')`) synchronously; the check
precedes the per-name loop, so no mutation happens — the model produces no
new state on the error path — for every registry state, including states in
which the named events have no listeners at all. -/
theorem non_callable_listener_rejected (st : EventEmitter) (names : String)
    (v : JSVal) (p : Bool) (fuel : Nat) (h : ∀ l, v ≠ .fn l) :
    addListener st names v p = .error .typeError ∧
    removeListener fuel st names v = .error .typeError := by
  cases v with
  | fn l => exact absurd rfl (h l)
  | num x => exact ⟨rfl, rfl⟩
  | str s2 => exact ⟨rfl, rfl⟩
  | undef => exact ⟨rfl, rfl⟩

theorem non_callable_listener_rejected_witness :
    addListener EventEmitter.new "event" .undef false = .error .typeError ∧
    removeListener 5 EventEmitter.new "event" .undef = .error .typeError :=
  non_callable_listener_rejected EventEmitter.new "event" .undef false 5
    (fun l => by simp)

/-- C1 (code-bug evidence): with `"a"` holding only the listener `base 0`
and a meta-listener `base 9` registered for `"removeListener"`, removing the
absent listener `base 1` from `"a"` leaves the registry contents unchanged
yet still emits the `"removeListener"` event — the meta-listener is invoked
with arguments `("a", base 1)` — because the source guard
`currentListeners !== newListeners` compares the reference of a freshly
allocated filtered array against the old array and is therefore always
true. -/
theorem removeListener_emits_even_without_removal :
    removeListenerFn 10
      ⟨[("removeListener", [.base 9]), ("a", [.base 0])], .fin 10⟩ "a" (.base 1) =
      some (⟨[("removeListener", [.base 9]), ("a", [.base 0])], .fin 10⟩,
            [(.base 9, [.str "a", .fn (.base 1)])]) := by
  decide

theorem mapGet_eq_some_of_ne (st : EventEmitter) (n : String)
    (hc : listeners st n ≠ []) : mapGet st.eventMap n = some (listeners st n) := by
  unfold listeners at *
  cases hg : mapGet st.eventMap n with
  | none => rw [hg] at hc; simp at hc
  | some v => rfl

/-- C4: for a listener `f` not already registered under a (single,
space-free) event name `n`, `addListener(n, f)` immediately followed by
`removeListener(n, f)` is a net no-op on the registry: the removal run
succeeds and the resulting state has the same `listenerCount`, the same
`eventNames` and the same `listeners` contents as before the pair of calls,
for every name; the `"removeListener"` meta-emission the removal triggers is
a side effect on the call log only. -/
theorem add_remove_roundtrip (st : EventEmitter) (n : String) (f : Listener)
    (fuel : Nat)
    (hwf : wf st)
    (hsplit : splitSpace n = [n])
    (hnotin : f ∉ listeners st n)
    (hmeta : ∀ l ∈ listeners st "removeListener", l.isBase = true)
    (hfuel : (listeners st "removeListener").length + 4 ≤ fuel) :
    ∃ st2 calls,
      removeListenerFn fuel (addListenerFn st n f false) n f = some (st2, calls) ∧
      (∀ m, listenerCount st2 m = listenerCount st m) ∧
      eventNames st2 = eventNames st ∧
      (∀ m, listeners st2 m = listeners st m) := by
  obtain ⟨f2, rfl⟩ : ∃ f2, fuel = f2 + 1 := ⟨fuel - 1, by omega⟩
  obtain ⟨f3, rfl⟩ : ∃ f3, f2 = f3 + 1 := ⟨f2 - 1, by omega⟩
  have hadd : addListenerFn st n f false = addOne st n f false := by
    unfold addListenerFn
    rw [hsplit]
    rfl
  have hl1 : listeners (addOne st n f false) n = listeners st n ++ [f] := by
    rw [listeners_addOne_self]
    simp
  have hfilter : (listeners (addOne st n f false) n).filter (fun x => x ≠ f) =
      listeners st n := by
    rw [hl1, List.filter_append, filter_ne_of_not_mem _ _ hnotin]
    simp
  rw [hadd]
  by_cases hc : listeners st n = []
  · have hget : mapGet st.eventMap n = none := mapGet_eq_none_of_wf st n hwf hc
    have h1 : (addOne st n f false).eventMap = st.eventMap ++ [(n, [f])] := by
      rw [addOne_eventMap]
      simp only [Bool.false_eq_true, if_false, hc, List.nil_append]
      exact mapSet_absent st.eventMap n [f] hget
    have hres : removeListenerFn (f3 + 1 + 1) (addOne st n f false) n f =
        some (removeAllListeners (addOne st n f false) n, []) := by
      simp only [removeListenerFn]
      rw [hsplit]
      exact removeNames_single_empty f3 (addOne st n f false) n f (by rw [hfilter, hc])
    have hdel : removeAllListeners (addOne st n f false) n = st := by
      unfold removeAllListeners
      rw [h1, mapDelete_append_absent _ _ _ hget, addOne_maxListeners]
    rw [hdel] at hres
    exact ⟨st, [], hres, fun m => rfl, rfl, fun m => rfl⟩
  · have hget : mapGet st.eventMap n = some (listeners st n) :=
      mapGet_eq_some_of_ne st n hc
    have h1 : (addOne st n f false).eventMap =
        mapSet st.eventMap n (listeners st n ++ [f]) := by
      rw [addOne_eventMap]
      simp
    have hst1 : { addOne st n f false with
        eventMap := mapSet (addOne st n f false).eventMap n
          ((listeners (addOne st n f false) n).filter (fun x => x ≠ f)) } = st := by
      rw [hfilter, h1, mapSet_mapSet, mapSet_self _ _ _ hget]
      dsimp only
      rw [addOne_maxListeners]
    obtain ⟨b, tops, csM, hemit, hcsM⟩ :=
      emit_base_generic f3 st "removeListener" [.str n, .fn f] hmeta (by omega)
    have hrn : removeNames (f3 + 1) (addOne st n f false) [n] f = some (st, csM) := by
      apply removeNames_single_emit f3 (addOne st n f false) n f st b tops csM
        (by rw [hfilter]; exact hc)
      rw [hst1]
      exact hemit
    refine ⟨st, csM, ?_, fun m => rfl, rfl, fun m => rfl⟩
    simp only [removeListenerFn]
    rw [hsplit]
    exact hrn

theorem add_remove_roundtrip_witness :
    ∃ st2 calls,
      removeListenerFn 10
        (addListenerFn ⟨[("removeListener", [.base 9]), ("e", [.base 0])], .fin 10⟩
          "e" (.base 1) false) "e" (.base 1) = some (st2, calls) ∧
      (∀ m, listenerCount st2 m =
        listenerCount ⟨[("removeListener", [.base 9]), ("e", [.base 0])], .fin 10⟩ m) ∧
      eventNames st2 =
        eventNames ⟨[("removeListener", [.base 9]), ("e", [.base 0])], .fin 10⟩ ∧
      (∀ m, listeners st2 m =
        listeners ⟨[("removeListener", [.base 9]), ("e", [.base 0])], .fin 10⟩ m) :=
  add_remove_roundtrip ⟨[("removeListener", [.base 9]), ("e", [.base 0])], .fin 10⟩
    "e" (.base 1) 10 (by decide) (by decide) (by decide) (by decide) (by decide)

/-- C10: name splitting performs no trimming and no filtering of empty
tokens: `addListener` with the empty names string registers the listener
under the empty-string event name; a names string containing consecutive
spaces (here `"a  b"`) also registers it under the empty-string name; `""`
then appears in `eventNames()`, `listenerCount("")` is positive, and
emitting `""` invokes the listener and returns `true`. -/
theorem empty_name_token_registration (st : EventEmitter) (f : Listener)
    (args : List JSVal) (fuel : Nat)
    (hbase : ∀ l ∈ listeners st "", l.isBase = true)
    (hf : f.isBase = true)
    (hfuel : (listeners st "").length + 2 < fuel) :
    listeners (addListenerFn st "" f false) "" = listeners st "" ++ [f] ∧
    listeners (addListenerFn st "a  b" f false) "" = listeners st "" ++ [f] ∧
    "" ∈ eventNames (addListenerFn st "" f false) ∧
    0 < listenerCount (addListenerFn st "" f false) "" ∧
    emit fuel (addListenerFn st "" f false) "" args =
      some (addListenerFn st "" f false, true,
            (listeners st "" ++ [f]).map (fun l => (l, args)),
            (listeners st "" ++ [f]).map (fun l => (l, args))) := by
  have hsplit : splitSpace "" = [""] := rfl
  have hsplit2 : splitSpace "a  b" = ["a", "", "b"] := rfl
  have hadd : addListenerFn st "" f false = addOne st "" f false := by
    unfold addListenerFn
    rw [hsplit]
    rfl
  have hl : listeners (addListenerFn st "" f false) "" = listeners st "" ++ [f] := by
    rw [hadd, listeners_addOne_self]
    simp
  refine ⟨hl, ?_, ?_, ?_, ?_⟩
  · unfold addListenerFn
    rw [hsplit2]
    simp only [List.foldl_cons, List.foldl_nil]
    rw [listeners_addOne_other _ "b" "" f false (by decide),
      listeners_addOne_self,
      listeners_addOne_other _ "a" "" f false (by decide)]
    simp
  · rw [hadd]
    unfold eventNames
    apply mem_keys_of_mapGet_isSome
    rw [addOne_eventMap, mapGet_mapSet_self]
    rfl
  · rw [listenerCount_eq_length, hl]
    simp
  · obtain ⟨f2, rfl⟩ : ∃ f2, fuel = f2 + 1 := ⟨fuel - 1, by omega⟩
    have hbase2 : ∀ l ∈ listeners (addListenerFn st "" f false) "", l.isBase = true := by
      rw [hl]
      intro l hlm
      rcases List.mem_append.mp hlm with hin | hin
      · exact hbase l hin
      · simp at hin
        rw [hin]
        exact hf
    have hne : listeners (addListenerFn st "" f false) "" ≠ [] := by
      rw [hl]
      simp
    have hres := emit_base_nonempty f2 (addListenerFn st "" f false) "" args hbase2 hne
      (by rw [hl]; simp; omega)
    rw [hres, hl]

theorem empty_name_token_registration_witness :
    listeners (addListenerFn EventEmitter.new "" (.base 0) false) "" =
      listeners EventEmitter.new "" ++ [Listener.base 0] ∧
    listeners (addListenerFn EventEmitter.new "a  b" (.base 0) false) "" =
      listeners EventEmitter.new "" ++ [Listener.base 0] ∧
    "" ∈ eventNames (addListenerFn EventEmitter.new "" (.base 0) false) ∧
    0 < listenerCount (addListenerFn EventEmitter.new "" (.base 0) false) "" ∧
    emit 5 (addListenerFn EventEmitter.new "" (.base 0) false) "" [.num (.fin 1)] =
      some (addListenerFn EventEmitter.new "" (.base 0) false, true,
            (listeners EventEmitter.new "" ++ [Listener.base 0]).map (fun l => (l, [.num (.fin 1)])),
            (listeners EventEmitter.new "" ++ [Listener.base 0]).map (fun l => (l, [.num (.fin 1)]))) :=
  empty_name_token_registration EventEmitter.new (.base 0) [.num (.fin 1)] 5
    (by decide) (by decide) (by decide)

theorem listeners_removeAll_self_nodup (st : EventEmitter) (t : String)
    (hkeys : keysNodup st) : listeners (removeAllListeners st t) t = [] := by
  unfold listeners removeAllListeners
  dsimp only
  rw [mapGet_mapDelete_self_nodup st.eventMap t hkeys]
  rfl

theorem listeners_removeAll_other (st : EventEmitter) (t t2 : String)
    (h : t2 ≠ t) : listeners (removeAllListeners st t) t2 = listeners st t2 := by
  unfold listeners removeAllListeners
  dsimp only
  rw [mapGet_mapDelete_other _ _ _ h]

theorem listeners_addFold (ts : List String) (f : Listener) (p : Bool) :
    ∀ st : EventEmitter, ts.Nodup →
      (∀ t, t ∉ ts → listeners (ts.foldl (fun s n => addOne s n f p) st) t = listeners st t) ∧
      (∀ t ∈ ts, listeners (ts.foldl (fun s n => addOne s n f p) st) t =
        if p then f :: listeners st t else listeners st t ++ [f]) := by
  induction ts with
  | nil =>
      intro st _
      exact ⟨fun t _ => rfl, fun t ht => absurd ht (List.not_mem_nil t)⟩
  | cons t0 rest ih =>
      intro st hnd
      simp only [List.foldl_cons]
      obtain ⟨hnotin, hnd2⟩ := List.nodup_cons.mp hnd
      obtain ⟨ihOut, ihIn⟩ := ih (addOne st t0 f p) hnd2
      constructor
      · intro t ht
        simp only [List.mem_cons, not_or] at ht
        rw [ihOut t ht.2, listeners_addOne_other _ _ _ _ _ ht.1]
      · intro t ht
        rcases List.mem_cons.mp ht with rfl | hmem
        · rw [ihOut t hnotin, listeners_addOne_self]
        · have hne : t ≠ t0 := fun he => hnotin (he ▸ hmem)
          rw [ihIn t hmem, listeners_addOne_other _ _ _ _ _ hne]

theorem removeNames_no_meta (ts : List String) (f : Listener) :
    ∀ (st : EventEmitter) (fuel : Nat), keysNodup st →
      listeners st "removeListener" = [] →
      2 * ts.length < fuel →
      ∃ st2, removeNames fuel st ts f = some (st2, []) ∧
        (∀ t, listeners st2 t =
          if t ∈ ts then (listeners st t).filter (fun x => x ≠ f) else listeners st t) := by
  induction ts with
  | nil =>
      intro st fuel _ _ _
      refine ⟨st, ?_, fun t => by simp⟩
      cases fuel <;> simp [removeNames]
  | cons t0 rest ih =>
      intro st fuel hkeys hmeta hfuel
      obtain ⟨g, rfl⟩ : ∃ g, fuel = g + 1 := ⟨fuel - 1, by omega⟩
      by_cases hb : (listeners st t0).filter (fun x => x ≠ f) = []
      · have hkeys2 : keysNodup (removeAllListeners st t0) :=
          keysNodup_mapDelete st.eventMap t0 hkeys
        have hmeta2 : listeners (removeAllListeners st t0) "removeListener" = [] := by
          by_cases he : ("removeListener" : String) = t0
          · rw [he]
            exact listeners_removeAll_self_nodup st t0 hkeys
          · rw [listeners_removeAll_other st t0 _ he]
            exact hmeta
        obtain ⟨st2, hrun, hchar⟩ := ih (removeAllListeners st t0) g hkeys2 hmeta2
          (by simp at hfuel ⊢; omega)
        refine ⟨st2, ?_, ?_⟩
        · simp only [removeNames, if_pos hb]
          exact hrun
        · intro t
          rw [hchar t]
          by_cases ht0 : t = t0
          · subst ht0
            rw [listeners_removeAll_self_nodup st t hkeys, hb]
            simp
          · rw [listeners_removeAll_other st t0 t ht0]
            simp [List.mem_cons, ht0]
      · have ht0ne : t0 ≠ "removeListener" := by
          intro he
          rw [he, hmeta] at hb
          simp at hb
        have hkeys1 : keysNodup { st with eventMap := (mapSet st.eventMap t0 ((listeners st t0).filter (fun x => x ≠ f))) } :=
          keysNodup_mapSet st t0 _ hkeys
        have hmeta1 : listeners { st with eventMap := (mapSet st.eventMap t0 ((listeners st t0).filter (fun x => x ≠ f))) } "removeListener" = [] := by
          unfold listeners
          dsimp only
          rw [mapGet_mapSet_other _ _ _ _ (Ne.symm ht0ne)]
          exact hmeta
        have hl1self : listeners { st with eventMap := (mapSet st.eventMap t0 ((listeners st t0).filter (fun x => x ≠ f))) } t0 = (listeners st t0).filter (fun x => x ≠ f) := by
          unfold listeners
          dsimp only
          rw [mapGet_mapSet_self]
          rfl
        have hl1other : ∀ t2, t2 ≠ t0 → listeners { st with eventMap := (mapSet st.eventMap t0 ((listeners st t0).filter (fun x => x ≠ f))) } t2 = listeners st t2 := by
          intro t2 ht2
          unfold listeners
          dsimp only
          rw [mapGet_mapSet_other _ _ _ _ ht2]
        obtain ⟨g2, rfl⟩ : ∃ g2, g = g2 + 1 := ⟨g - 1, by simp at hfuel; omega⟩
        have hemit : emit (g2 + 1) { st with eventMap := (mapSet st.eventMap t0 ((listeners st t0).filter (fun x => x ≠ f))) } "removeListener" [.str t0, .fn f] = some ({ st with eventMap := (mapSet st.eventMap t0 ((listeners st t0).filter (fun x => x ≠ f))) }, false, [], []) :=
          emit_eq_empty g2 _ _ _ hmeta1
        obtain ⟨st2, hrun, hchar⟩ := ih _ (g2 + 1) hkeys1 hmeta1
          (by simp at hfuel ⊢; omega)
        refine ⟨st2, ?_, ?_⟩
        · simp only [removeNames, if_neg hb, jsRefNeq, if_true, Option.bind_eq_bind]
          rw [hemit]
          simp only [Option.some_bind]
          rw [hrun]
          simp
        · intro t
          rw [hchar t]
          by_cases ht0 : t = t0
          · subst ht0
            rw [hl1self]
            simp [filter_idem]
          · rw [hl1other t ht0]
            simp [List.mem_cons, ht0]

/-- C8: a space-separated names string registers one listener independently
under each name of the split list — each listed name's sequence gains the
listener at the end, and no unlisted name's sequence changes — and
`removeListener` with the same combined names string removes every
occurrence of the listener from every listed name's sequence, leaving
unlisted names untouched. -/
theorem multi_name_register_and_remove (st : EventEmitter) (names : String)
    (f : Listener) (fuel : Nat)
    (hnd : (splitSpace names).Nodup)
    (hkeys : keysNodup st)
    (hmeta : listeners st "removeListener" = [])
    (hfuel : 2 * (splitSpace names).length + 2 ≤ fuel) :
    (∀ t ∈ splitSpace names,
      listeners (addListenerFn st names f false) t = listeners st t ++ [f]) ∧
    (∀ t, t ∉ splitSpace names →
      listeners (addListenerFn st names f false) t = listeners st t) ∧
    ∃ st2, removeListenerFn fuel st names f = some (st2, []) ∧
      (∀ t ∈ splitSpace names,
        listeners st2 t = (listeners st t).filter (fun x => x ≠ f)) ∧
      (∀ t, t ∉ splitSpace names → listeners st2 t = listeners st t) := by
  have haf : addListenerFn st names f false =
      (splitSpace names).foldl (fun s n => addOne s n f false) st := rfl
  obtain ⟨hOut, hIn⟩ := listeners_addFold (splitSpace names) f false st hnd
  refine ⟨fun t ht => ?_, fun t ht => ?_, ?_⟩
  · rw [haf, hIn t ht]
    simp
  · rw [haf, hOut t ht]
  · obtain ⟨g, rfl⟩ : ∃ g, fuel = g + 1 := ⟨fuel - 1, by omega⟩
    obtain ⟨st2, hrun, hchar⟩ := removeNames_no_meta (splitSpace names) f st g hkeys
      hmeta (by omega)
    refine ⟨st2, ?_, fun t ht => by rw [hchar t, if_pos ht],
      fun t ht => by rw [hchar t, if_neg ht]⟩
    simp only [removeListenerFn]
    exact hrun

theorem multi_name_register_and_remove_witness :
    (∀ t ∈ splitSpace "a b",
      listeners (addListenerFn ⟨[("a", [.base 0]), ("b", [.base 0, .base 1])], .fin 10⟩
        "a b" (.base 0) false) t =
      listeners ⟨[("a", [.base 0]), ("b", [.base 0, .base 1])], .fin 10⟩ t ++ [.base 0]) ∧
    (∀ t, t ∉ splitSpace "a b" →
      listeners (addListenerFn ⟨[("a", [.base 0]), ("b", [.base 0, .base 1])], .fin 10⟩
        "a b" (.base 0) false) t =
      listeners ⟨[("a", [.base 0]), ("b", [.base 0, .base 1])], .fin 10⟩ t) ∧
    ∃ st2, removeListenerFn 10 ⟨[("a", [.base 0]), ("b", [.base 0, .base 1])], .fin 10⟩
        "a b" (.base 0) = some (st2, []) ∧
      (∀ t ∈ splitSpace "a b",
        listeners st2 t =
          (listeners ⟨[("a", [.base 0]), ("b", [.base 0, .base 1])], .fin 10⟩ t).filter
            (fun x => x ≠ .base 0)) ∧
      (∀ t, t ∉ splitSpace "a b" →
        listeners st2 t =
          listeners ⟨[("a", [.base 0]), ("b", [.base 0, .base 1])], .fin 10⟩ t) :=
  multi_name_register_and_remove ⟨[("a", [.base 0]), ("b", [.base 0, .base 1])], .fin 10⟩
    "a b" (.base 0) 10 (by decide) (by decide) (by decide) (by decide)

/-- C7: a listener `f` registered via `once(n, f)` is invoked, with the
emitted arguments, exactly once on the first emit of `n` after registration
(the call log of that emit contains exactly one `f`-call, carrying the
emitted arguments); the emit finishes in the original registry state, so
`listenerCount(n)` is one less than immediately after registration and the
wrapper registration is absent; and no successful later emit of `n` from
that state invokes `f` again. -/
theorem once_fires_exactly_once (st : EventEmitter) (n : String) (f : Listener)
    (args : List JSVal) (fuel : Nat)
    (hwf : wf st)
    (hsplit : splitSpace n = [n])
    (hf : f.isBase = true)
    (hL : ∀ l ∈ listeners st n, l.isBase = true ∧ l ≠ f)
    (hM : ∀ l ∈ listeners st "removeListener", l.isBase = true ∧ l ≠ f)
    (hfuel : (listeners st n).length + (listeners st "removeListener").length + 8 ≤ fuel) :
    ∃ tops calls,
      emit fuel (once st n f false) n args = some (st, true, tops, calls) ∧
      calls.filter (fun c => c.1 = f) = [(f, args)] ∧
      listenerCount (once st n f false) n = listenerCount st n + 1 ∧
      Listener.onceWrap n f ∉ listeners st n ∧
      (∀ fuel2 args2 st3 b2 tops2 calls2,
        emit fuel2 st n args2 = some (st3, b2, tops2, calls2) →
        calls2.filter (fun c => c.1 = f) = []) := by
  have hadd : once st n f false = addOne st n (.onceWrap n f) false := by
    unfold once addListenerFn
    rw [hsplit]
    rfl
  have hwnotL : Listener.onceWrap n f ∉ listeners st n := by
    intro hmem
    have hx := (hL _ hmem).1
    simp [Listener.isBase] at hx
  have hl1 : listeners (once st n f false) n = listeners st n ++ [.onceWrap n f] := by
    rw [hadd, listeners_addOne_self]
    simp
  have hfilter : (listeners (once st n f false) n).filter
      (fun x => x ≠ Listener.onceWrap n f) = listeners st n := by
    rw [hl1, List.filter_append, filter_ne_of_not_mem _ _ hwnotL]
    simp
  have hrm : ∀ k, (listeners st "removeListener").length + 2 ≤ k →
      ∃ csR, removeNames (k + 1) (once st n f false) [n] (.onceWrap n f) = some (st, csR) ∧
        ∀ c ∈ csR, c.1 ∈ listeners st "removeListener" := by
    intro k hkb
    by_cases hc : listeners st n = []
    · have hget : mapGet st.eventMap n = none := mapGet_eq_none_of_wf st n hwf hc
      have h1 : (once st n f false).eventMap = st.eventMap ++ [(n, [.onceWrap n f])] := by
        rw [hadd, addOne_eventMap]
        simp only [Bool.false_eq_true, if_false, hc, List.nil_append]
        exact mapSet_absent st.eventMap n _ hget
      have hdel : removeAllListeners (once st n f false) n = st := by
        unfold removeAllListeners
        rw [h1, mapDelete_append_absent _ _ _ hget, hadd, addOne_maxListeners]
      have hres := removeNames_single_empty k (once st n f false) n (.onceWrap n f)
        (by rw [hfilter, hc])
      rw [hdel] at hres
      exact ⟨[], hres, by simp⟩
    · have hget : mapGet st.eventMap n = some (listeners st n) :=
        mapGet_eq_some_of_ne st n hc
      have h1 : (once st n f false).eventMap =
          mapSet st.eventMap n (listeners st n ++ [.onceWrap n f]) := by
        rw [hadd, addOne_eventMap]
        simp
      have hst1 : { once st n f false with eventMap := (mapSet (once st n f false).eventMap n ((listeners (once st n f false) n).filter (fun x => x ≠ Listener.onceWrap n f))) } = st := by
        rw [hfilter, h1, mapSet_mapSet, mapSet_self _ _ _ hget]
        dsimp only
        rw [hadd, addOne_maxListeners]
      obtain ⟨b, tops, csM, hemit, hcsM⟩ := emit_base_generic k st "removeListener"
        [.str n, .fn (.onceWrap n f)] (fun l hl => (hM l hl).1) hkb
      refine ⟨csM, ?_, fun c hc2 => hcsM c hc2⟩
      apply removeNames_single_emit k (once st n f false) n (.onceWrap n f) st b tops csM
        (by rw [hfilter]; exact hc)
      rw [hst1]
      exact hemit
  obtain ⟨k, hkeq⟩ : ∃ k, fuel = (listeners st n).length + (k + 5) :=
    ⟨fuel - (listeners st n).length - 5, by omega⟩
  obtain ⟨csR, hrmRun, hcsR⟩ := hrm k (by omega)
  obtain ⟨i, hfi⟩ := isBase_elim f hf
  have hrmRun2 : removeNames (k + 1) (once st n f false) (splitSpace n) (.onceWrap n f) =
      some (st, csR) := by
    rw [hsplit]
    exact hrmRun
  have hinv : invoke (k + 2 + 1) (once st n f false) (.onceWrap n f) args =
      some (st, (Listener.onceWrap n f, args) :: ([(f, args)] ++ csR)) := by
    simp only [invoke, Option.bind_eq_bind]
    rw [hfi]
    rw [show (k + 2 : Nat) = (k + 1) + 1 from rfl, invoke_base (k + 1)]
    simp only [Option.some_bind]
    simp only [removeListenerFn]
    rw [← hfi, hrmRun2]
    simp [hfi]
  have hel1 : emitList (k + 4) (once st n f false) [(.onceWrap n f : Listener)] args =
      some (st, [(Listener.onceWrap n f, args)],
            (Listener.onceWrap n f, args) :: ([(f, args)] ++ csR)) := by
    rw [show (k + 4 : Nat) = (k + 3) + 1 from rfl]
    simp only [emitList, Option.bind_eq_bind]
    rw [show (k + 3 : Nat) = (k + 2) + 1 from rfl, hinv]
    simp only [Option.some_bind]
    cases k <;> simp [emitList]
  have hsnap : listeners (once st n f false) n ≠ [] := by
    rw [hl1]
    simp
  subst hkeq
  have hemitMain : emit ((listeners st n).length + (k + 5)) (once st n f false) n args =
      some (st, true,
            (listeners st n).map (fun l => (l, args)) ++ [(Listener.onceWrap n f, args)],
            (listeners st n).map (fun l => (l, args)) ++
              ((Listener.onceWrap n f, args) :: ([(f, args)] ++ csR))) := by
    show emit (((listeners st n).length + (k + 4)) + 1) _ _ _ = _
    simp only [emit, if_neg hsnap, Option.bind_eq_bind]
    rw [hl1]
    rw [emitList_base_front (listeners st n) ((listeners st n).length + (k + 4))
      (once st n f false) [.onceWrap n f] args (fun l hl => (hL l hl).1) (by omega)]
    have harith : (listeners st n).length + (k + 4) - (listeners st n).length = k + 4 := by
      omega
    rw [harith, hel1]
    simp
  refine ⟨_, _, hemitMain, ?_, ?_, hwnotL, ?_⟩
  · rw [List.filter_append]
    have hz1 : ((listeners st n).map (fun l => (l, args))).filter
        (fun c => c.1 = f) = [] := by
      rw [List.filter_eq_nil_iff]
      intro c hcm
      obtain ⟨l, hlm, rfl⟩ := List.mem_map.mp hcm
      simp [(hL l hlm).2]
    have hz2 : csR.filter (fun c => (c.1 = f : Bool)) = [] := by
      rw [List.filter_eq_nil_iff]
      intro c hcm
      simp [(hM c.1 (hcsR c hcm)).2]
    rw [hz1]
    simp only [List.filter_cons, List.filter_append, hz2]
    rw [hfi]
    simp
  · rw [listenerCount_eq_length, listenerCount_eq_length, hl1]
    simp
  · intro fuel2 args2 st3 b2 tops2 calls2 hother
    obtain ⟨hst3, hcalls2⟩ := emit_base_inv fuel2 st n args2 st3 b2 tops2 calls2
      (fun l hl => (hL l hl).1) hother
    rw [hcalls2, List.filter_eq_nil_iff]
    intro c hcm
    obtain ⟨l, hlm, rfl⟩ := List.mem_map.mp hcm
    simp [(hL l hlm).2]

theorem once_fires_exactly_once_witness :
    ∃ tops calls,
      emit 12 (once ⟨[("e", [.base 0])], .fin 10⟩ "e" (.base 1) false) "e" [.str "v"] =
        some (⟨[("e", [.base 0])], .fin 10⟩, true, tops, calls) ∧
      calls.filter (fun c => c.1 = .base 1) = [(.base 1, [.str "v"])] ∧
      listenerCount (once ⟨[("e", [.base 0])], .fin 10⟩ "e" (.base 1) false) "e" =
        listenerCount ⟨[("e", [.base 0])], .fin 10⟩ "e" + 1 ∧
      Listener.onceWrap "e" (.base 1) ∉ listeners ⟨[("e", [.base 0])], .fin 10⟩ "e" ∧
      (∀ fuel2 args2 st3 b2 tops2 calls2,
        emit fuel2 ⟨[("e", [.base 0])], .fin 10⟩ "e" args2 = some (st3, b2, tops2, calls2) →
        calls2.filter (fun c => c.1 = .base 1) = []) :=
  once_fires_exactly_once ⟨[("e", [.base 0])], .fin 10⟩ "e" (.base 1) [.str "v"] 12
    (by decide) (by decide) (by decide) (by decide) (by decide) (by decide)

end Eventio
